import Mathlib

/-!
Verification of the eslint-bot diff-position mapping and finding-aggregation
engine. The definitions below are shallow embeddings of the functions in
src/server.js and the two variants in src/unnamed/part_001:
`getLineMapFromPatchString`, the grouping fold inside `sendComments`
(`groupLintErrorsByLine` in the refactored variant), `sendSingleComment`,
and the webhook action guards of the three `app.post` handlers.

Conventions of the embedding:
- A JS object used as a map is modelled as an association list where
  assignment to an existing key replaces the value in place (`setKey`) and
  lookup returns the stored value (`getKeyVal`), matching JS object
  semantics including key order.
- A line of the patch is a `List Char`; `splitLines` mirrors the JS
  `patchString.split(String.mk [newline])` exactly (the empty string splits
  into one empty line).
- The file line counter is an `Int` because a hunk header of the form
  `@@ ... +0 ... @@` sets it to -1 in the JS code.
- A thrown TypeError (dereferencing a failed regex match) is modelled by
  `Option`: the parser returns `none` where the JS code throws.
-/

namespace EslintBot

variable {α : Type}

/-- JS object assignment `m[k] = v`: replace the value in place when the key
is present, otherwise append the new pair at the end. -/
def setKey : List (Int × α) → Int → α → List (Int × α)
  | [], k, v => [(k, v)]
  | (k0, v0) :: rest, k, v =>
    if k0 = k then (k, v) :: rest else (k0, v0) :: setKey rest k v

/-- JS object lookup `m[k]`: `none` models `undefined`. -/
def getKeyVal : List (Int × α) → Int → Option α
  | [], _ => none
  | (k0, v0) :: rest, k => if k0 = k then some v0 else getKeyVal rest k

/-- JS in-place update `m[k].field = ...`: apply `f` to the value stored at
`k`, leave a map without the key unchanged. -/
def updateValue : List (Int × α) → Int → (α → α) → List (Int × α)
  | [], _, _ => []
  | (k0, v0) :: rest, k, f =>
    if k0 = k then (k0, f v0) :: rest else (k0, v0) :: updateValue rest k f

/-- Whether the key is present in the map. -/
def hasKey (m : List (Int × α)) (k : Int) : Bool :=
  (getKeyVal m k).isSome

/-- Embedding of the JS `patchString.split` on the newline character: the
empty text splits into one empty line, and each newline starts a new line. -/
def splitLines : List Char → List (List Char)
  | [] => [[]]
  | c :: cs =>
    if c = '\n' then [] :: splitLines cs
    else
      match splitLines cs with
      | [] => [[c]]
      | l :: ls => (c :: l) :: ls

/-- The JS test `line.match(/^@@.*\/)`: the line begins with two at signs. -/
def isHunkHeader : List Char → Bool
  | '@' :: '@' :: _ => true
  | _ => false

/-- Embedding of the JS regex match `line.match(/\+[0-9]+/)` followed by
`[0].slice(1)` read as a number: scan for the first position where a plus
sign is immediately followed by a decimal digit, and return the number
written by the maximal digit run after that plus sign; `none` models a
failed match (where the JS code would throw on the `[0]` dereference). -/
def findPlusNum : List Char → Option Nat
  | [] => none
  | c :: rest =>
    if c = '+' ∧ rest.head?.any Char.isDigit then
      some ((rest.takeWhile Char.isDigit).foldl (fun acc d => 10 * acc + (d.toNat - 48)) 0)
    else
      findPlusNum rest

/-- The mutable state of the `reduce` in `getLineMapFromPatchString`:
the two counters and the accumulated line map. -/
structure ParseState where
  diffLineIndex : Nat
  fileLineIndex : Int
  lineMap : List (Int × Nat)
  deriving DecidableEq, Repr

/-- One iteration of the `reduce` callback in `getLineMapFromPatchString`
(src/server.js lines 67-79). `none` models the TypeError thrown when a hunk
header line has no plus-and-digits group. -/
def processLine (s : ParseState) (line : List Char) : Option ParseState :=
  if isHunkHeader line then
    match findPlusNum line with
    | none => none
    | some n => some { s with fileLineIndex := (n : Int) - 1 }
  else
    let diff := s.diffLineIndex + 1
    if line.head? = some '-' then
      some { s with diffLineIndex := diff }
    else
      let file := s.fileLineIndex + 1
      if line.head? = some '+' then
        some { diffLineIndex := diff, fileLineIndex := file,
               lineMap := setKey s.lineMap file diff }
      else
        some { s with diffLineIndex := diff, fileLineIndex := file }

/-- The whole `reduce` loop over the split lines. -/
def processLines (s : ParseState) : List (List Char) → Option ParseState
  | [] => some s
  | l :: ls =>
    match processLine s l with
    | none => none
    | some s' => processLines s' ls

/-- Embedding of `getLineMapFromPatchString` (src/server.js lines 64-81):
split the patch on newlines and fold `processLine` from both counters at 0
and an empty map. `none` models a thrown TypeError. -/
def getLineMapFromPatchString (patchString : String) : Option (List (Int × Nat)) :=
  (processLines ⟨0, 0, []⟩ (splitLines patchString.data)).map ParseState.lineMap

/-- One ESLint message as consumed by the grouping fold: `ruleId` is `none`
when the JS property is absent (the destructuring default then applies). -/
structure LintError where
  ruleId : Option String
  message : String
  line : Int
  deriving DecidableEq, Repr

/-- One value of the `errorsByLine` object built in `sendComments`
(src/server.js lines 137-149): the target line and the composed body. -/
structure FindingGroup where
  line : Int
  message : String
  deriving DecidableEq, Repr

/-- The template literal of the grouping fold, with the destructuring default
`ruleId = 'Eslint'` applied when the rule id is absent. -/
def entryText (e : LintError) : String :=
  "**" ++ e.ruleId.getD "Eslint" ++ "**: " ++ e.message

/-- One iteration of the `reduce` callback in `sendComments`
(src/server.js lines 137-148), `groupLintErrorsByLine` in the refactored
variant: create the group with an empty message on first occurrence of the
line, then append a newline and the entry by `[old].concat(entry).join`.
The key prefix dot of `getKey` is dropped: prefixing every key with a dot is
injective on line numbers, and it only serves to keep JS object insertion
order, which the association list keeps anyway. -/
def groupStep (acc : List (Int × FindingGroup)) (e : LintError) : List (Int × FindingGroup) :=
  let acc1 :=
    if hasKey acc e.line then acc
    else acc ++ [(e.line, { line := e.line, message := "" })]
  updateValue acc1 e.line fun g =>
    { line := g.line, message := g.message ++ ("\n" ++ entryText e) }

/-- Embedding of `groupLintErrorsByLine` (src/unnamed/part_001 lines 85-100),
the same fold as the one inlined in `sendComments` of src/server.js. -/
def groupLintErrorsByLine (lintErrors : List LintError) : List (Int × FindingGroup) :=
  lintErrors.foldl groupStep []

/-- The grouping fold with the callback treated as state-passing: each call
of the callback hands back the lint error it received, because the callback
body reads `ruleId`, `message` and `line` but assigns only to `acc`. The
second component is the findings list as it stands after the fold. -/
def groupLintErrorsRun : List (Int × FindingGroup) → List LintError →
    List (Int × FindingGroup) × List LintError
  | acc, [] => (acc, [])
  | acc, e :: rest =>
    let next := groupLintErrorsRun (groupStep acc e) rest
    (next.1, e :: next.2)

/-- The payload of `github.pullRequests.createComment` as filled in by
`sendSingleComment` (src/server.js lines 114-122). -/
structure ReviewComment where
  number : Int
  body : String
  commitId : String
  path : String
  position : Nat
  deriving DecidableEq, Repr

/-- Embedding of `sendSingleComment` (src/server.js lines 108-124): look the
group line up in the line map and emit one comment when the stored diff
position is truthy (present and nonzero), nothing otherwise. The returned
list holds the outbound comment calls the function makes. -/
def sendSingleComment (filename : String) (lineMap : List (Int × Nat))
    (lintError : FindingGroup) (sha : String) (prNumber : Int) : List ReviewComment :=
  match getKeyVal lineMap lintError.line with
  | none => []
  | some diffLinePosition =>
    if diffLinePosition = 0 then []
    else
      [{ number := prNumber, body := lintError.message, commitId := sha,
         path := filename, position := diffLinePosition }]

/-- The webhook payload as far as the `app.post` guards inspect it: the
`action` string and whether a `pull_request` object is present (a JS object
is always truthy). -/
structure WebhookPayload where
  action : String
  hasPullRequest : Bool
  deriving DecidableEq, Repr

/-- Embedding of the `app.post` handler of src/server.js lines 177-183: the
first component is whether `treatPayload` is invoked, the second whether the
response is ended (which it is unconditionally). -/
def handlePostServer (payload : WebhookPayload) : Bool × Bool :=
  (payload.hasPullRequest && payload.action == "opened", true)

/-- Embedding of the `app.post` handler of the refactored variant
(src/unnamed/part_001 lines 153-162). -/
def handlePostRefactored (payload : WebhookPayload) : Bool × Bool :=
  let openedOrReopened := payload.action == "opened" || payload.action == "reopened"
  (payload.hasPullRequest && openedOrReopened, true)

/-- Embedding of the `app.post` handler of the logging variant
(src/unnamed/part_001 lines 381-387), which never inspects `action`. -/
def handlePostLogging (payload : WebhookPayload) : Bool × Bool :=
  (payload.hasPullRequest, true)

/-- The body the grouping fold actually composes for a list of findings in
arrival order: each finding contributes a newline followed by its entry. -/
def composedBody : List LintError → String
  | [] => ""
  | e :: es => ("\n" ++ entryText e) ++ composedBody es

/-- The new-start number of a hunk header line; the default is never reached
on a header whose plus group parses. -/
def specNewStart (line : List Char) : Nat :=
  (findPlusNum line).getD 0

/-- Written from the claim text, for comparison with the parser: the
new-file line numbers of the addition lines of a patch. A hunk header sets
the new-file counter to its new-start minus one, every following line that
is not a deletion occupies the next new-file line, and the addition lines
are the ones beginning with a plus sign. -/
def specAdditionLines (fileLine : Int) : List (List Char) → List Int
  | [] => []
  | l :: ls =>
    if isHunkHeader l then specAdditionLines ((specNewStart l : Int) - 1) ls
    else if l.head? = some '-' then specAdditionLines fileLine ls
    else if l.head? = some '+' then
      (fileLine + 1) :: specAdditionLines (fileLine + 1) ls
    else specAdditionLines (fileLine + 1) ls

/-- The map entry recorded by one line of the patch, if any: an addition
line records its new-file line number against its diff position. -/
def lineEvents (s : ParseState) (line : List Char) : List (Int × Nat) :=
  if isHunkHeader line then []
  else if line.head? = some '-' then []
  else if line.head? = some '+' then [(s.fileLineIndex + 1, s.diffLineIndex + 1)]
  else []

/-- `processLines` instrumented with the sequence of map assignments in the
order the fold records them. -/
def processLinesEvents (s : ParseState) :
    List (List Char) → Option (ParseState × List (Int × Nat))
  | [] => some (s, [])
  | l :: ls =>
    match processLine s l with
    | none => none
    | some s' =>
      match processLinesEvents s' ls with
      | none => none
      | some (s'', evs) => some (s'', lineEvents s l ++ evs)

end EslintBot

namespace EslintBot

/-- Claim C6: parsing the concrete patch string with one hunk header, one
context line, one addition and one trailing context line yields the line map
whose only entry maps new-file line 2 to diff position 2. -/
theorem claim6_scenario_one_line_map :
    getLineMapFromPatchString "@@ -1,2 +1,3 @@\n context\n+added line\n context2" =
      some [((2 : Int), (2 : Nat))] := by
  rfl

/-- Claim C8: parsing the empty patch string returns an empty line map, even
though the empty string splits into the single empty line. -/
theorem claim8_empty_patch_empty_map :
    getLineMapFromPatchString "" = some [] ∧ splitLines "".data = [[]] := by
  exact ⟨rfl, rfl⟩

theorem getKeyVal_append_single (m : List (Int × α)) (k k' : Int) (v : α) :
    getKeyVal (m ++ [(k, v)]) k' =
      match getKeyVal m k' with
      | some w => some w
      | none => if k = k' then some v else none := by
  induction m with
  | nil => simp [getKeyVal]
  | cons p rest ih =>
    by_cases h : p.1 = k'
    · simp [getKeyVal, h]
    · simp [getKeyVal, h, ih]

theorem getKeyVal_updateValue (m : List (Int × α)) (k k' : Int) (f : α → α) :
    getKeyVal (updateValue m k f) k' =
      if k = k' then (getKeyVal m k').map f else getKeyVal m k' := by
  induction m with
  | nil => simp [getKeyVal, updateValue]
  | cons p rest ih =>
    by_cases hk : p.1 = k
    · by_cases hk' : p.1 = k'
      · simp [getKeyVal, updateValue, hk, hk', hk.symm.trans hk']
      · have : ¬ k = k' := fun h => hk' (hk.trans h)
        simp [getKeyVal, updateValue, hk, hk', this]
    · by_cases hk' : p.1 = k'
      · have hkk' : ¬ k = k' := fun h => hk (hk'.trans h.symm)
        have hk'k : ¬ k' = k := fun h => hkk' h.symm
        simp [getKeyVal, updateValue, hk, hk', hkk', hk'k]
      · simp [getKeyVal, updateValue, hk, hk', ih]

theorem getKeyVal_foldl_groupStep (lintErrors : List LintError)
    (acc : List (Int × FindingGroup)) (l : Int) :
    getKeyVal (lintErrors.foldl groupStep acc) l =
      match getKeyVal acc l with
      | some g =>
          some { line := g.line,
                 message := g.message ++
                   composedBody (lintErrors.filter fun e => e.line = l) }
      | none =>
          if lintErrors.filter (fun e => e.line = l) = [] then none
          else some { line := l,
                      message := composedBody (lintErrors.filter fun e => e.line = l) } := by
  induction lintErrors generalizing acc with
  | nil =>
    cases hv : getKeyVal acc l with
    | none => simp [List.filter, hv]
    | some g => simp [List.filter, composedBody, String.append_empty, hv]
  | cons e rest ih =>
    have step : (e :: rest).foldl groupStep acc = rest.foldl groupStep (groupStep acc e) := rfl
    rw [step, ih]
    by_cases hl : e.line = l
    · subst hl
      have hfilter : (e :: rest).filter (fun e' => e'.line = e.line) =
          e :: rest.filter (fun e' => e'.line = e.line) := by
        simp [List.filter]
      cases hv : getKeyVal acc e.line with
      | some g =>
        have hhas : hasKey acc e.line = true := by
          simp [hasKey, hv]
        have hacc' : getKeyVal (groupStep acc e) e.line =
            some { line := g.line, message := g.message ++ ("\n" ++ entryText e) } := by
          simp only [groupStep]
          rw [if_pos hhas, getKeyVal_updateValue, if_pos rfl, hv]
          rfl
        rw [hacc', hfilter]
        simp [composedBody, String.append_assoc]
      | none =>
        have hhas : ¬ hasKey acc e.line = true := by
          simp [hasKey, hv]
        have hacc' : getKeyVal (groupStep acc e) e.line =
            some { line := e.line, message := "\n" ++ entryText e } := by
          simp only [groupStep]
          rw [if_neg hhas, getKeyVal_updateValue, if_pos rfl, getKeyVal_append_single, hv]
          simp [String.empty_append]
        rw [hacc', hfilter]
        simp [composedBody]
    · have hfilter : (e :: rest).filter (fun e' => e'.line = l) =
          rest.filter (fun e' => e'.line = l) := by
        simp [List.filter, hl]
      have hacc' : getKeyVal (groupStep acc e) l = getKeyVal acc l := by
        by_cases hhas : hasKey acc e.line = true
        · simp only [groupStep]
          rw [if_pos hhas, getKeyVal_updateValue, if_neg hl]
        · simp only [groupStep]
          rw [if_neg hhas, getKeyVal_updateValue, if_neg hl, getKeyVal_append_single]
          cases hv : getKeyVal acc l <;> simp [hl]
      rw [hacc', hfilter]

/-- Claim C2 counterexample: on the two findings at line 3 with rules A and
B the composed body is not the A entry, a newline and the B entry; the fold
seeds the group with an empty message and joins with a newline, so the body
carries a leading newline. -/
theorem claim2_counterexample_leading_newline :
    groupLintErrorsByLine [⟨some "A", "mA", 3⟩, ⟨some "B", "mB", 3⟩] =
      [(3, { line := 3, message := "\n**A**: mA\n**B**: mB" })] ∧
    ("\n**A**: mA\n**B**: mB" : String) ≠ "**A**: mA" ++ "\n" ++ "**B**: mB" := by
  exact ⟨by decide, by decide⟩

/-- Claim C2 as amended: the group stored for a line is present exactly when
some finding targets that line, and its body is the concatenation, over the
findings targeting that line in arrival order, of a newline followed by the
entry (rule id defaulting to Eslint when absent); so the entries are joined
by single newlines but the whole body starts with one leading newline. -/
theorem claim2_amended_group_body (lintErrors : List LintError) (l : Int) :
    getKeyVal (groupLintErrorsByLine lintErrors) l =
      if lintErrors.filter (fun e => e.line = l) = [] then none
      else some { line := l,
                  message := composedBody (lintErrors.filter fun e => e.line = l) } := by
  rw [groupLintErrorsByLine, getKeyVal_foldl_groupStep]
  simp [getKeyVal]

theorem groupLintErrorsRun_eq (acc : List (Int × FindingGroup))
    (lintErrors : List LintError) :
    groupLintErrorsRun acc lintErrors = (lintErrors.foldl groupStep acc, lintErrors) := by
  induction lintErrors generalizing acc with
  | nil => rfl
  | cons e rest ih => simp [groupLintErrorsRun, ih, List.foldl]

/-- Claim C7: the grouping fold is pure and deterministic: it hands the
finding list back unchanged (the callback assigns only to the accumulator),
and aggregating the findings as they stand after the first application
yields exactly the groups of the first application. -/
theorem claim7_aggregate_pure (lintErrors : List LintError) :
    (groupLintErrorsRun [] lintErrors).2 = lintErrors ∧
    groupLintErrorsByLine ((groupLintErrorsRun [] lintErrors).2) =
      (groupLintErrorsRun [] lintErrors).1 := by
  simp [groupLintErrorsRun_eq, groupLintErrorsByLine]

/-- Claim C4 counterexample: a payload with a pull request and action
reopened is not processed by the handler of src/server.js, although the
claim requires processing exactly when the action is opened or reopened. -/
theorem claim4_counterexample_reopened_ignored :
    ¬ (((handlePostServer { action := "reopened", hasPullRequest := true }).1 = true) ↔
      (({ action := "reopened", hasPullRequest := true } : WebhookPayload).hasPullRequest = true ∧
        (("reopened" : String) = "opened" ∨ ("reopened" : String) = "reopened"))) := by
  decide

/-- Claim C4 as amended: each handler ends the response unconditionally, and
processing is triggered exactly when a pull request object is present and
the action is in the accepted set of the variant: only opened for
src/server.js, opened or reopened for the refactored variant, and any
action at all for the logging variant. -/
theorem claim4_amended_action_guards (p : WebhookPayload) :
    ((handlePostServer p).1 = true ↔ p.hasPullRequest = true ∧ p.action = "opened") ∧
    ((handlePostRefactored p).1 = true ↔
      p.hasPullRequest = true ∧ (p.action = "opened" ∨ p.action = "reopened")) ∧
    ((handlePostLogging p).1 = true ↔ p.hasPullRequest = true) ∧
    (handlePostServer p).2 = true ∧ (handlePostRefactored p).2 = true ∧
    (handlePostLogging p).2 = true := by
  simp [handlePostServer, handlePostRefactored, handlePostLogging]

theorem processLine_inv (s : ParseState) (l : List Char) (s' : ParseState)
    (h : processLine s l = some s') :
    (∃ n, isHunkHeader l = true ∧ findPlusNum l = some n ∧
      s' = { s with fileLineIndex := (n : Int) - 1 }) ∨
    (isHunkHeader l = false ∧ l.head? = some '-' ∧
      s' = { s with diffLineIndex := s.diffLineIndex + 1 }) ∨
    (isHunkHeader l = false ∧ l.head? ≠ some '-' ∧ l.head? = some '+' ∧
      s' = { diffLineIndex := s.diffLineIndex + 1, fileLineIndex := s.fileLineIndex + 1,
             lineMap := setKey s.lineMap (s.fileLineIndex + 1) (s.diffLineIndex + 1) }) ∨
    (isHunkHeader l = false ∧ l.head? ≠ some '-' ∧ l.head? ≠ some '+' ∧
      s' = { s with diffLineIndex := s.diffLineIndex + 1,
                    fileLineIndex := s.fileLineIndex + 1 }) := by
  unfold processLine at h
  by_cases hh : isHunkHeader l = true
  · rw [if_pos hh] at h
    cases hfp : findPlusNum l with
    | none => rw [hfp] at h; cases h
    | some n =>
      rw [hfp] at h
      exact Or.inl ⟨n, hh, rfl, (Option.some.inj h).symm⟩
  · have hh' : isHunkHeader l = false := by
      cases hb : isHunkHeader l
      · rfl
      · exact absurd hb hh
    rw [if_neg hh] at h
    simp only at h
    by_cases hd : l.head? = some '-'
    · rw [if_pos hd] at h
      exact Or.inr (Or.inl ⟨hh', hd, (Option.some.inj h).symm⟩)
    · rw [if_neg hd] at h
      by_cases hp : l.head? = some '+'
      · rw [if_pos hp] at h
        exact Or.inr (Or.inr (Or.inl ⟨hh', hd, hp, (Option.some.inj h).symm⟩))
      · rw [if_neg hp] at h
        exact Or.inr (Or.inr (Or.inr ⟨hh', hd, hp, (Option.some.inj h).symm⟩))

theorem processLine_diff (s : ParseState) (l : List Char) (s' : ParseState)
    (h : processLine s l = some s') :
    s'.diffLineIndex = s.diffLineIndex + (if isHunkHeader l then 0 else 1) := by
  rcases processLine_inv s l s' h with ⟨n, hh, _, rfl⟩ | ⟨hh, _, rfl⟩ |
    ⟨hh, _, _, rfl⟩ | ⟨hh, _, _, rfl⟩ <;> simp [hh]

theorem processLines_diff (ls : List (List Char)) (s s' : ParseState)
    (h : processLines s ls = some s') :
    s'.diffLineIndex = s.diffLineIndex + (ls.countP fun l => !isHunkHeader l) := by
  induction ls generalizing s with
  | nil => cases h; simp
  | cons l ls ih =>
    unfold processLines at h
    cases hpl : processLine s l with
    | none => rw [hpl] at h; cases h
    | some s1 =>
      rw [hpl] at h
      have hd := processLine_diff s l s1 hpl
      rw [ih s1 h, hd, List.countP_cons]
      by_cases hh : isHunkHeader l = true
      · simp [hh]
      · simp [hh]
        omega

theorem mem_setKey (m : List (Int × α)) (k : Int) (v : α) (p : Int × α)
    (h : p ∈ setKey m k v) : p = (k, v) ∨ p ∈ m := by
  induction m with
  | nil =>
    simp only [setKey, List.mem_singleton] at h
    exact Or.inl h
  | cons q rest ih =>
    obtain ⟨qk, qv⟩ := q
    simp only [setKey] at h
    by_cases hk : qk = k
    · rw [if_pos hk] at h
      rcases List.mem_cons.mp h with h' | h'
      · exact Or.inl h'
      · exact Or.inr (List.mem_cons_of_mem _ h')
    · rw [if_neg hk] at h
      rcases List.mem_cons.mp h with h' | h'
      · exact Or.inr (h' ▸ List.mem_cons_self _ _)
      · rcases ih h' with h'' | h''
        · exact Or.inl h''
        · exact Or.inr (List.mem_cons_of_mem _ h'')

theorem hasKey_setKey (m : List (Int × α)) (k k' : Int) (v : α) :
    hasKey (setKey m k v) k' = true ↔ k' = k ∨ hasKey m k' = true := by
  induction m with
  | nil =>
    by_cases hk : k = k'
    · simp [setKey, hasKey, getKeyVal, hk]
    · have h2 : ¬ k' = k := fun hc => hk hc.symm
      simp [setKey, hasKey, getKeyVal, hk, h2]
  | cons q rest ih =>
    obtain ⟨qk, qv⟩ := q
    simp only [setKey]
    by_cases hk : qk = k
    · subst hk
      rw [if_pos rfl]
      by_cases hk' : k' = qk
      · simp [hasKey, getKeyVal, hk']
      · have h2 : ¬ qk = k' := fun hc => hk' hc.symm
        simp [hasKey, getKeyVal, h2, hk']
    · rw [if_neg hk]
      by_cases hk' : qk = k'
      · simp [hasKey, getKeyVal, hk']
      · simp only [hasKey, getKeyVal, if_neg hk']
        exact ih

theorem getKeyVal_mem (m : List (Int × α)) (k : Int) (v : α)
    (h : getKeyVal m k = some v) : (k, v) ∈ m := by
  induction m with
  | nil => cases h
  | cons q rest ih =>
    by_cases hk : q.1 = k
    · rw [getKeyVal, if_pos hk] at h
      cases q
      cases h
      simp_all
    · rw [getKeyVal, if_neg hk] at h
      exact List.mem_cons_of_mem _ (ih h)

theorem lineMap_values_bound (ls : List (List Char)) (s s' : ParseState)
    (h : processLines s ls = some s')
    (hinv : ∀ p ∈ s.lineMap, 1 ≤ p.2 ∧ p.2 ≤ s.diffLineIndex) :
    ∀ p ∈ s'.lineMap, 1 ≤ p.2 ∧ p.2 ≤ s'.diffLineIndex := by
  induction ls generalizing s with
  | nil => cases h; exact hinv
  | cons l ls ih =>
    unfold processLines at h
    cases hpl : processLine s l with
    | none => rw [hpl] at h; cases h
    | some s1 =>
      rw [hpl] at h
      refine ih s1 h ?_
      rcases processLine_inv s l s1 hpl with ⟨n, _, _, rfl⟩ | ⟨_, _, rfl⟩ |
        ⟨_, _, _, rfl⟩ | ⟨_, _, _, rfl⟩
      · exact hinv
      · intro p hp
        have := hinv p hp
        constructor <;> [exact this.1; exact Nat.le_succ_of_le this.2]
      · intro p hp
        rcases mem_setKey _ _ _ _ hp with rfl | hp'
        · exact ⟨Nat.succ_le_succ (Nat.zero_le _), Nat.le_refl _⟩
        · have := hinv p hp'
          exact ⟨this.1, Nat.le_succ_of_le this.2⟩
      · intro p hp
        have := hinv p hp
        exact ⟨this.1, Nat.le_succ_of_le this.2⟩

theorem getLineMap_values_pos (patch : String) (m : List (Int × Nat))
    (h : getLineMapFromPatchString patch = some m) :
    ∀ p ∈ m, 1 ≤ p.2 := by
  unfold getLineMapFromPatchString at h
  cases hp : processLines ⟨0, 0, []⟩ (splitLines patch.data) with
  | none => rw [hp] at h; cases h
  | some s' =>
    rw [hp] at h
    cases h
    intro p hpm
    exact (lineMap_values_bound _ _ _ hp (by intro p hp; cases hp) p hpm).1

theorem hasKey_processLines (ls : List (List Char)) (s s' : ParseState)
    (h : processLines s ls = some s') (k : Int) :
    hasKey s'.lineMap k = true ↔
      hasKey s.lineMap k = true ∨ k ∈ specAdditionLines s.fileLineIndex ls := by
  induction ls generalizing s with
  | nil => cases h; simp [specAdditionLines]
  | cons l ls ih =>
    unfold processLines at h
    cases hpl : processLine s l with
    | none => rw [hpl] at h; cases h
    | some s1 =>
      rw [hpl] at h
      rcases processLine_inv s l s1 hpl with ⟨n, hh, hfp, rfl⟩ | ⟨hh, hd, rfl⟩ |
        ⟨hh, hd, hp, rfl⟩ | ⟨hh, hd, hp, rfl⟩
      · rw [ih _ h]
        simp only [specAdditionLines]
        rw [if_pos hh]
        simp [specNewStart, hfp]
      · rw [ih _ h]
        have hhp : ¬ isHunkHeader l = true := by simp [hh]
        simp only [specAdditionLines]
        rw [if_neg hhp, if_pos hd]
      · rw [ih _ h]
        have hhp : ¬ isHunkHeader l = true := by simp [hh]
        simp only [specAdditionLines]
        rw [if_neg hhp, if_neg hd, if_pos hp]
        simp only [List.mem_cons]
        rw [hasKey_setKey]
        tauto
      · rw [ih _ h]
        have hhp : ¬ isHunkHeader l = true := by simp [hh]
        simp only [specAdditionLines]
        rw [if_neg hhp, if_neg hd, if_neg hp]

theorem processLines_total (ls : List (List Char)) (s : ParseState)
    (hgood : ∀ l ∈ ls, isHunkHeader l = true → (findPlusNum l).isSome = true) :
    (processLines s ls).isSome = true := by
  induction ls generalizing s with
  | nil => rfl
  | cons l ls ih =>
    cases hpl : processLine s l with
    | none =>
      exfalso
      unfold processLine at hpl
      by_cases hh : isHunkHeader l = true
      · rw [if_pos hh] at hpl
        have hsome := hgood l (List.mem_cons_self _ _) hh
        cases hfp : findPlusNum l with
        | none => rw [hfp] at hsome; cases hsome
        | some n => rw [hfp] at hpl; cases hpl
      · rw [if_neg hh] at hpl
        simp only at hpl
        by_cases hd : l.head? = some '-'
        · rw [if_pos hd] at hpl; cases hpl
        · rw [if_neg hd] at hpl
          by_cases hp : l.head? = some '+'
          · rw [if_pos hp] at hpl; cases hpl
          · rw [if_neg hp] at hpl; cases hpl
    | some s1 =>
      have hstep : processLines s (l :: ls) = processLines s1 ls := by
        simp [processLines, hpl]
      rw [hstep]
      exact ih s1 (fun l' hl' => hgood l' (List.mem_cons_of_mem _ hl'))

theorem processLinesEvents_fst (ls : List (List Char)) (s : ParseState) :
    Option.map Prod.fst (processLinesEvents s ls) = processLines s ls := by
  induction ls generalizing s with
  | nil => rfl
  | cons l ls ih =>
    cases hpl : processLine s l with
    | none => simp [processLinesEvents, processLines, hpl]
    | some s1 =>
      cases hev : processLinesEvents s1 ls with
      | none =>
        have h2 := ih s1
        rw [hev] at h2
        simp only [Option.map_none'] at h2
        simp [processLinesEvents, processLines, hpl, hev, ← h2]
      | some p =>
        obtain ⟨s2, evs⟩ := p
        have h2 := ih s1
        rw [hev] at h2
        simp only [Option.map_some'] at h2
        simp [processLinesEvents, processLines, hpl, hev, ← h2]

theorem processLinesEvents_bounds (ls : List (List Char)) (s s' : ParseState)
    (evs : List (Int × Nat)) (h : processLinesEvents s ls = some (s', evs)) :
    (∀ p ∈ evs, s.diffLineIndex < p.2 ∧ p.2 ≤ s'.diffLineIndex) ∧
    List.Pairwise (fun a b : Int × Nat => a.2 < b.2) evs := by
  induction ls generalizing s evs with
  | nil =>
    unfold processLinesEvents at h
    simp only [Option.some.injEq, Prod.mk.injEq] at h
    obtain ⟨rfl, rfl⟩ := h
    exact ⟨fun p hp => absurd hp (List.not_mem_nil p), List.Pairwise.nil⟩
  | cons l ls ih =>
    cases hpl : processLine s l with
    | none =>
      simp only [processLinesEvents, hpl] at h
      cases h
    | some s1 =>
      simp only [processLinesEvents, hpl] at h
      cases hev : processLinesEvents s1 ls with
      | none =>
        simp only [hev] at h
        cases h
      | some p =>
        obtain ⟨s2, evs'⟩ := p
        simp only [hev, Option.some.injEq, Prod.mk.injEq] at h
        obtain ⟨rfl, rfl⟩ := h
        obtain ⟨hbound, hpair⟩ := ih s1 evs' hev
        have hdm : s.diffLineIndex ≤ s1.diffLineIndex := by
          have hd := processLine_diff s l s1 hpl
          by_cases hh : isHunkHeader l = true <;> (simp [hh] at hd; omega)
        by_cases hh : isHunkHeader l = true
        · have hle : lineEvents s l = [] := by simp [lineEvents, hh]
          rw [hle, List.nil_append]
          exact ⟨fun p hp => ⟨lt_of_le_of_lt hdm (hbound p hp).1, (hbound p hp).2⟩, hpair⟩
        · by_cases hdd : l.head? = some '-'
          · have hle : lineEvents s l = [] := by simp [lineEvents, hh, hdd]
            rw [hle, List.nil_append]
            exact ⟨fun p hp => ⟨lt_of_le_of_lt hdm (hbound p hp).1, (hbound p hp).2⟩, hpair⟩
          · by_cases hpp : l.head? = some '+'
            · have hle : lineEvents s l =
                  [(s.fileLineIndex + 1, s.diffLineIndex + 1)] := by
                simp [lineEvents, hh, hdd, hpp]
              have hs1d : s1.diffLineIndex = s.diffLineIndex + 1 := by
                have hd := processLine_diff s l s1 hpl
                simp [hh] at hd
                omega
              have hdm2 : s1.diffLineIndex ≤ s2.diffLineIndex := by
                have hfst := processLinesEvents_fst ls s1
                rw [hev] at hfst
                simp only [Option.map_some'] at hfst
                have := processLines_diff ls s1 s2 hfst.symm
                omega
              rw [hle, List.singleton_append]
              constructor
              · intro p hp
                rcases List.mem_cons.mp hp with rfl | hp'
                · refine ⟨by omega, ?_⟩
                  show s.diffLineIndex + 1 ≤ s2.diffLineIndex
                  omega
                · exact ⟨lt_of_le_of_lt hdm (hbound p hp').1, (hbound p hp').2⟩
              · refine List.Pairwise.cons ?_ hpair
                intro b hb
                have hbb := (hbound b hb).1
                show s.diffLineIndex + 1 < b.2
                omega
            · have hle : lineEvents s l = [] := by simp [lineEvents, hh, hdd, hpp]
              rw [hle, List.nil_append]
              exact ⟨fun p hp => ⟨lt_of_le_of_lt hdm (hbound p hp).1, (hbound p hp).2⟩, hpair⟩

end EslintBot

namespace EslintBot

/-- Claim C1: the keys of the line map returned by the parser are exactly
the new-file line numbers of the addition lines of the patch (the lines
beginning with a plus sign that are not hunk headers); context and deletion
lines are never keys. -/
theorem claim1_keys_are_addition_lines (patch : String) (m : List (Int × Nat)) (k : Int)
    (h : getLineMapFromPatchString patch = some m) :
    hasKey m k = true ↔ k ∈ specAdditionLines 0 (splitLines patch.data) := by
  unfold getLineMapFromPatchString at h
  cases hp : processLines ⟨0, 0, []⟩ (splitLines patch.data) with
  | none => rw [hp] at h; cases h
  | some s' =>
    rw [hp] at h
    cases h
    rw [hasKey_processLines _ _ _ hp k]
    simp [hasKey, getKeyVal]

/-- Witness for claim C1 at the concrete scenario patch: the key 2 is
present and is the new-file line number of the only addition line. -/
theorem claim1_witness :
    hasKey [((2 : Int), (2 : Nat))] 2 = true ↔
      (2 : Int) ∈ specAdditionLines 0
        (splitLines ("@@ -1,2 +1,3 @@\n context\n+added line\n context2").data) :=
  claim1_keys_are_addition_lines _ _ 2 rfl

/-- Claim C3: on every non-header line the diff position counter advances by
exactly one and the file line counter advances by one exactly when the line
is not a deletion; every hunk header leaves the diff position unchanged and
sets the file line counter to new-start minus one; over any run of lines the
diff position grows by exactly the number of non-header lines, so it is
never reset and is strictly increasing and continuous across hunks. -/
theorem claim3_counter_discipline :
    (∀ (s : ParseState) (line : List Char) (s' : ParseState),
        processLine s line = some s' → isHunkHeader line = false →
        s'.diffLineIndex = s.diffLineIndex + 1) ∧
    (∀ (s : ParseState) (line : List Char) (s' : ParseState),
        processLine s line = some s' → isHunkHeader line = false →
        (s'.fileLineIndex = s.fileLineIndex + 1 ↔ ¬ line.head? = some '-')) ∧
    (∀ (s : ParseState) (line : List Char) (s' : ParseState) (n : Nat),
        processLine s line = some s' → isHunkHeader line = true →
        findPlusNum line = some n →
        s'.diffLineIndex = s.diffLineIndex ∧ s'.fileLineIndex = (n : Int) - 1) ∧
    (∀ (s : ParseState) (ls : List (List Char)) (s' : ParseState),
        processLines s ls = some s' →
        s'.diffLineIndex = s.diffLineIndex + (ls.countP fun l => !isHunkHeader l)) := by
  refine ⟨?_, ?_, ?_, ?_⟩
  · intro s line s' h hh
    have hd := processLine_diff s line s' h
    simp [hh] at hd
    exact hd
  · intro s line s' h hh
    rcases processLine_inv s line s' h with ⟨n, hh', _, rfl⟩ | ⟨_, hd, rfl⟩ |
      ⟨_, hd, _, rfl⟩ | ⟨_, hd, _, rfl⟩
    · rw [hh'] at hh; cases hh
    · simp [hd]
    · simp [hd]
    · simp [hd]
  · intro s line s' n h hh hfp
    rcases processLine_inv s line s' h with ⟨n', hh', hfp', rfl⟩ | ⟨hh', _, _⟩ |
      ⟨hh', _, _, _⟩ | ⟨hh', _, _, _⟩
    · rw [hfp] at hfp'
      cases hfp'
      exact ⟨rfl, rfl⟩
    · rw [hh'] at hh; cases hh
    · rw [hh'] at hh; cases hh
    · rw [hh'] at hh; cases hh
  · intro s ls s' h
    exact processLines_diff ls s s' h

/-- Claim C5: against a line map produced by the parser, a finding group
whose line is not a key yields no outbound comment and no error, and a
group whose line is a key yields exactly one comment carrying the composed
body and the stored diff position. -/
theorem claim5_group_emission (patch : String) (m : List (Int × Nat))
    (h : getLineMapFromPatchString patch = some m)
    (g : FindingGroup) (filename sha : String) (prNumber : Int) :
    (getKeyVal m g.line = none → sendSingleComment filename m g sha prNumber = []) ∧
    (∀ v, getKeyVal m g.line = some v →
      sendSingleComment filename m g sha prNumber =
        [{ number := prNumber, body := g.message, commitId := sha,
           path := filename, position := v }]) := by
  constructor
  · intro hv
    unfold sendSingleComment
    rw [hv]
  · intro v hv
    have h1 : 1 ≤ v := getLineMap_values_pos patch m h (g.line, v) (getKeyVal_mem _ _ _ hv)
    unfold sendSingleComment
    rw [hv]
    simp [show ¬ v = 0 by omega]

/-- Witness for claim C5: with the scenario line map, the group at line 5 is
dropped and any stored position for line 2 yields one comment. -/
theorem claim5_witness :
    (getKeyVal [((2 : Int), (2 : Nat))] (5 : Int) = none →
      sendSingleComment "f.js" [((2 : Int), (2 : Nat))]
        { line := 5, message := "b" } "sha0" 7 = []) ∧
    (∀ v, getKeyVal [((2 : Int), (2 : Nat))] (5 : Int) = some v →
      sendSingleComment "f.js" [((2 : Int), (2 : Nat))]
        { line := 5, message := "b" } "sha0" 7 =
        [{ number := 7, body := "b", commitId := "sha0",
           path := "f.js", position := v }]) :=
  claim5_group_emission "@@ -1,2 +1,3 @@\n context\n+added line\n context2" _ rfl
    { line := 5, message := "b" } "f.js" "sha0" 7

/-- Claim C9: when every hunk header line of the patch has a plus sign
immediately followed by a digit the parser returns a map without raising,
and on the malformed header with no such group it raises (returns none),
because the JS code dereferences the failed regex match. -/
theorem claim9_parser_totality :
    (∀ patch : String,
      (∀ l ∈ splitLines patch.data, isHunkHeader l = true →
        (findPlusNum l).isSome = true) →
      (getLineMapFromPatchString patch).isSome = true) ∧
    getLineMapFromPatchString "@@ malformed @@" = none := by
  constructor
  · intro patch hgood
    unfold getLineMapFromPatchString
    cases hp : processLines ⟨0, 0, []⟩ (splitLines patch.data) with
    | none =>
      have hs := processLines_total (splitLines patch.data) ⟨0, 0, []⟩ hgood
      rw [hp] at hs
      cases hs
    | some s' => simp
  · rfl

/-- Claim C10: every value stored in a parser-produced line map is at least
one, the recorded values are strictly increasing in recording order, and
therefore the truthiness guard of sendSingleComment emits exactly when the
line is a key: no present line is ever silently dropped. -/
theorem claim10_values_and_guard (patch : String) (s' : ParseState)
    (evs : List (Int × Nat))
    (h : processLinesEvents ⟨0, 0, []⟩ (splitLines patch.data) = some (s', evs)) :
    getLineMapFromPatchString patch = some s'.lineMap ∧
    (∀ p ∈ s'.lineMap, 1 ≤ p.2) ∧
    List.Pairwise (fun a b : Int × Nat => a.2 < b.2) evs ∧
    (∀ (g : FindingGroup) (filename sha : String) (prNumber : Int),
      sendSingleComment filename s'.lineMap g sha prNumber ≠ [] ↔
        hasKey s'.lineMap g.line = true) := by
  have hfst := processLinesEvents_fst (splitLines patch.data) ⟨0, 0, []⟩
  rw [h] at hfst
  simp only [Option.map_some'] at hfst
  have hpl : processLines ⟨0, 0, []⟩ (splitLines patch.data) = some s' := hfst.symm
  have hmap : getLineMapFromPatchString patch = some s'.lineMap := by
    unfold getLineMapFromPatchString
    rw [hpl]
    rfl
  have hpos : ∀ p ∈ s'.lineMap, 1 ≤ p.2 :=
    fun p hp => (lineMap_values_bound _ _ _ hpl (by intro q hq; cases hq) p hp).1
  refine ⟨hmap, hpos, (processLinesEvents_bounds _ _ _ _ h).2, ?_⟩
  intro g filename sha prNumber
  unfold sendSingleComment
  cases hv : getKeyVal s'.lineMap g.line with
  | none => simp [hasKey, hv]
  | some v =>
    have h1 : 1 ≤ v := hpos (g.line, v) (getKeyVal_mem _ _ _ hv)
    simp [hasKey, hv, show ¬ v = 0 by omega]

/-- Witness for claim C10 at the concrete scenario patch: one recorded
entry, value two, and the guard equivalence for every group. -/
theorem claim10_witness :
    getLineMapFromPatchString "@@ -1,2 +1,3 @@\n context\n+added line\n context2" =
      some (ParseState.mk 3 3 [((2 : Int), (2 : Nat))]).lineMap ∧
    (∀ p ∈ (ParseState.mk 3 3 [((2 : Int), (2 : Nat))]).lineMap, 1 ≤ p.2) ∧
    List.Pairwise (fun a b : Int × Nat => a.2 < b.2) [((2 : Int), (2 : Nat))] ∧
    (∀ (g : FindingGroup) (filename sha : String) (prNumber : Int),
      sendSingleComment filename
          (ParseState.mk 3 3 [((2 : Int), (2 : Nat))]).lineMap g sha prNumber ≠ [] ↔
        hasKey (ParseState.mk 3 3 [((2 : Int), (2 : Nat))]).lineMap g.line = true) :=
  claim10_values_and_guard "@@ -1,2 +1,3 @@\n context\n+added line\n context2"
    (ParseState.mk 3 3 [((2 : Int), (2 : Nat))]) [((2 : Int), (2 : Nat))] rfl

end EslintBot
